import Mathlib

/-!
Verification of the order-book aggregation and greedy-execution program
(`src/main.cpp`).  The C++ code is shallowly embedded: `double` prices and
quantities are modelled as `ℚ`, `std::vector<Order>` as `List Order`,
`std::sort` as `List.insertionSort` with the same price comparator, and the
greedy level-walking loops of `executeBuy` / `executeSell` as the recursive
function `walk` below.  The rate limiter's atomic timestamp is modelled as an
integer nanosecond count with an explicit compare-and-swap step.
-/

namespace Zebpay

/-- `struct Order { double price; double qty; };` (main.cpp lines 14-17). -/
structure Order where
  price : ℚ
  qty : ℚ
deriving DecidableEq, Repr

/-- `struct OrderBook { std::vector<Order> bids; std::vector<Order> asks; };`
(main.cpp lines 19-22). -/
structure OrderBook where
  bids : List Order
  asks : List Order
deriving DecidableEq, Repr

/-- The ask comparator of `executeBuy` (main.cpp line 118):
`a.price < b.price` sorts ascending by price; the resulting arrangement is
non-decreasing in price, which is what `List.Sorted askLE` expresses. -/
def askLE (a b : Order) : Prop := a.price ≤ b.price

/-- The bid comparator of `executeSell` (main.cpp line 132):
`a.price > b.price` sorts descending by price; the resulting arrangement is
non-increasing in price, which is what `List.Sorted bidGE` expresses. -/
def bidGE (a b : Order) : Prop := b.price ≤ a.price

instance : DecidableRel askLE := fun a b => inferInstanceAs (Decidable (a.price ≤ b.price))

instance : DecidableRel bidGE := fun a b => inferInstanceAs (Decidable (b.price ≤ a.price))

instance : IsTotal Order askLE := ⟨fun a b => le_total a.price b.price⟩

instance : IsTotal Order bidGE := ⟨fun a b => le_total b.price a.price⟩

instance : IsTrans Order askLE := ⟨fun _ _ _ h h' => le_trans h h'⟩

instance : IsTrans Order bidGE := ⟨fun _ _ _ h h' => le_trans h' h⟩

/-- The level-walking loop shared by `executeBuy` (main.cpp lines 120-126) and
`executeSell` (lines 134-140): at each level `take = min(qty, o.qty)` is
consumed, `take * o.price` is added to the accumulator, `qty` is decremented by
`take`, and the loop breaks as soon as the remaining quantity is `≤ 0`. -/
def walk : List Order → ℚ → ℚ
  | [], _ => 0
  | o :: rest, q =>
    if q - min q o.qty ≤ 0 then min q o.qty * o.price
    else min q o.qty * o.price + walk rest (q - min q o.qty)

/-- Total quantity consumed by the walking loop: the sum of the `take` values
of the iterations actually executed (same control flow as `walk`). -/
def consumed : List Order → ℚ → ℚ
  | [], _ => 0
  | o :: rest, q =>
    if q - min q o.qty ≤ 0 then min q o.qty
    else min q o.qty + consumed rest (q - min q o.qty)

/-- `executeBuy` (main.cpp lines 116-128): sort the asks ascending by price,
then run the greedy walking loop. -/
def executeBuy (asks : List Order) (qty : ℚ) : ℚ :=
  walk (List.insertionSort askLE asks) qty

/-- `executeSell` (main.cpp lines 130-142): sort the bids descending by price,
then run the greedy walking loop. -/
def executeSell (bids : List Order) (qty : ℚ) : ℚ :=
  walk (List.insertionSort bidGE bids) qty

/-- Quantity consumed by `executeBuy`'s loop from the sorted ask list. -/
def consumedBuy (asks : List Order) (qty : ℚ) : ℚ :=
  consumed (List.insertionSort askLE asks) qty

/-- The state of the ask vector after `executeBuy` returns: `std::sort`
(main.cpp line 117) reorders it in place, and the loop (lines 121-126) reads
each order by reference but never writes to it; the remaining quantity lives
in the by-value parameter `qty`.  The result does not depend on `qty`. -/
def executeBuyPost (asks : List Order) (_qty : ℚ) : List Order :=
  List.insertionSort askLE asks

/-- The state of the bid vector after `executeSell` returns (main.cpp lines
131-140): sorted in place, orders only read, `qty` a by-value local. -/
def executeSellPost (bids : List Order) (_qty : ℚ) : List Order :=
  List.insertionSort bidGE bids

/-- The aggregation step of `main` (main.cpp lines 155-159): the merged bid
pool is the concatenation of the two books' bids, the merged ask pool the
concatenation of their asks. -/
def aggregate (b1 b2 : OrderBook) : List Order × List Order :=
  (b1.bids ++ b2.bids, b1.asks ++ b2.asks)

/-- One loop iteration, restated: when the remaining quantity fits in the
level the walk ends there with cost `q * price`; otherwise the whole level is
consumed and the walk continues with `q - o.qty`. -/
lemma walk_cons (o : Order) (rest : List Order) (q : ℚ) :
    walk (o :: rest) q =
      if q ≤ o.qty then q * o.price else o.qty * o.price + walk rest (q - o.qty) := by
  by_cases h : q ≤ o.qty
  · have hmin : min q o.qty = q := min_eq_left h
    simp [walk, hmin, h]
  · have h' : o.qty ≤ q := le_of_not_le h
    have hmin : min q o.qty = o.qty := min_eq_right h'
    have hpos : ¬ q - o.qty ≤ 0 := fun hle => h (by linarith)
    simp [walk, hmin, h, hpos]

/-- Analogue of `walk_cons` for the consumed quantity. -/
lemma consumed_cons (o : Order) (rest : List Order) (q : ℚ) :
    consumed (o :: rest) q =
      if q ≤ o.qty then q else o.qty + consumed rest (q - o.qty) := by
  by_cases h : q ≤ o.qty
  · have hmin : min q o.qty = q := min_eq_left h
    simp [consumed, hmin, h]
  · have h' : o.qty ≤ q := le_of_not_le h
    have hmin : min q o.qty = o.qty := min_eq_right h'
    have hpos : ¬ q - o.qty ≤ 0 := fun hle => h (by linarith)
    simp [consumed, hmin, h, hpos]

/-- Walking with a zero target consumes nothing when every level quantity is
non-negative: the first iteration takes `min 0 qty = 0` and immediately
breaks. -/
lemma walk_zero (l : List Order) (h : ∀ o ∈ l, 0 ≤ o.qty) : walk l 0 = 0 := by
  cases l with
  | nil => rfl
  | cons o rest =>
    have h0 : (0 : ℚ) ≤ o.qty := h o (List.mem_cons_self o rest)
    rw [walk_cons, if_pos h0, zero_mul]

/-- The walking loop never consumes more than the total quantity available:
each iteration takes at most the level's quantity, and failing to visit a
level only forgoes its (non-negative) quantity. -/
lemma consumed_le_sum (l : List Order) (h : ∀ o ∈ l, 0 ≤ o.qty) (q : ℚ) :
    consumed l q ≤ (l.map Order.qty).sum := by
  induction l generalizing q with
  | nil => simp [consumed]
  | cons o rest ih =>
    have hrest : ∀ o' ∈ rest, 0 ≤ o'.qty := fun o' ho' => h o' (List.mem_cons_of_mem _ ho')
    have hsum : 0 ≤ (rest.map Order.qty).sum := by
      refine List.sum_nonneg ?_
      intro x hx
      obtain ⟨o', ho', rfl⟩ := List.mem_map.mp hx
      exact hrest o' ho'
    rw [consumed_cons, List.map_cons, List.sum_cons]
    by_cases hc : q ≤ o.qty
    · rw [if_pos hc]; linarith
    · rw [if_neg hc]
      have := ih hrest (q - o.qty)
      linarith

/-- When the total available quantity is strictly below the target, the walk
visits every level, consumes it entirely, and returns the full liquidity value
`Σ qty_i * price_i`. -/
lemma walk_exhausts (l : List Order) (h : ∀ o ∈ l, 0 ≤ o.qty) (q : ℚ)
    (hlt : (l.map Order.qty).sum < q) :
    walk l q = (l.map fun o => o.qty * o.price).sum := by
  induction l generalizing q with
  | nil => simp [walk]
  | cons o rest ih =>
    have hrest : ∀ o' ∈ rest, 0 ≤ o'.qty := fun o' ho' => h o' (List.mem_cons_of_mem _ ho')
    have hsum : 0 ≤ (rest.map Order.qty).sum := by
      refine List.sum_nonneg ?_
      intro x hx
      obtain ⟨o', ho', rfl⟩ := List.mem_map.mp hx
      exact hrest o' ho'
    rw [List.map_cons, List.sum_cons] at hlt
    have hc : ¬ q ≤ o.qty := by intro hle; linarith
    rw [walk_cons, if_neg hc, List.map_cons, List.sum_cons,
      ih hrest (q - o.qty) (by linarith)]

/-- The walk returns a non-negative value whenever the target quantity, the
level prices and the level quantities are non-negative. -/
lemma walk_nonneg (l : List Order) (h : ∀ o ∈ l, 0 ≤ o.price ∧ 0 ≤ o.qty)
    (q : ℚ) (hq : 0 ≤ q) : 0 ≤ walk l q := by
  induction l generalizing q with
  | nil => simp [walk]
  | cons o rest ih =>
    obtain ⟨hp, hqty⟩ := h o (List.mem_cons_self o rest)
    have hrest : ∀ o' ∈ rest, 0 ≤ o'.price ∧ 0 ≤ o'.qty :=
      fun o' ho' => h o' (List.mem_cons_of_mem _ ho')
    rw [walk_cons]
    by_cases hc : q ≤ o.qty
    · rw [if_pos hc]; exact mul_nonneg hq hp
    · rw [if_neg hc]
      have hsub : 0 ≤ q - o.qty := by
        have := lt_of_not_le hc
        linarith
      exact add_nonneg (mul_nonneg hqty hp) (ih hrest (q - o.qty) hsub)

/-- The walk is monotone in the target quantity on non-negative levels. -/
lemma walk_mono (l : List Order) (h : ∀ o ∈ l, 0 ≤ o.price ∧ 0 ≤ o.qty)
    (q1 q2 : ℚ) (h1 : 0 ≤ q1) (h12 : q1 ≤ q2) : walk l q1 ≤ walk l q2 := by
  induction l generalizing q1 q2 with
  | nil => simp [walk]
  | cons o rest ih =>
    obtain ⟨hp, hqty⟩ := h o (List.mem_cons_self o rest)
    have hrest : ∀ o' ∈ rest, 0 ≤ o'.price ∧ 0 ≤ o'.qty :=
      fun o' ho' => h o' (List.mem_cons_of_mem _ ho')
    rw [walk_cons, walk_cons]
    by_cases hc2 : q2 ≤ o.qty
    · have hc1 : q1 ≤ o.qty := le_trans h12 hc2
      rw [if_pos hc1, if_pos hc2]
      exact mul_le_mul_of_nonneg_right h12 hp
    · rw [if_neg hc2]
      have hsub2 : 0 ≤ q2 - o.qty := by
        have := lt_of_not_le hc2
        linarith
      by_cases hc1 : q1 ≤ o.qty
      · rw [if_pos hc1]
        have h1' : q1 * o.price ≤ o.qty * o.price := mul_le_mul_of_nonneg_right hc1 hp
        have h2' : 0 ≤ walk rest (q2 - o.qty) := walk_nonneg rest hrest _ hsub2
        linarith
      · rw [if_neg hc1]
        have hsub1 : 0 ≤ q1 - o.qty := by
          have := lt_of_not_le hc1
          linarith
        have := ih hrest (q1 - o.qty) (q2 - o.qty) hsub1 (by linarith)
        linarith

/-- Swapping two adjacent levels with the same price (and non-negative
quantities) does not change the walk's result: the combined take from the two
levels and the remaining quantity afterwards are symmetric. -/
lemma walk_swap (x y : Order) (zs : List Order) (hpq : x.price = y.price)
    (hx : 0 ≤ x.qty) (hy : 0 ≤ y.qty) (q : ℚ) :
    walk (x :: y :: zs) q = walk (y :: x :: zs) q := by
  obtain ⟨xp, xq⟩ := x
  obtain ⟨yp, yq⟩ := y
  simp only [walk_cons]
  dsimp only at hpq hx hy ⊢
  subst hpq
  rw [show q - xq - yq = q - yq - xq from by ring]
  split_ifs <;> first | ring1 | linarith

/-- A level whose price equals that of every level before it can be moved to
the front without changing the walk's result. -/
lemma walk_rotate (a : Order) (xs ys : List Order)
    (hxs : ∀ x ∈ xs, x.price = a.price) (hq : ∀ x ∈ xs, 0 ≤ x.qty)
    (ha : 0 ≤ a.qty) (q : ℚ) :
    walk (xs ++ a :: ys) q = walk (a :: (xs ++ ys)) q := by
  induction xs generalizing q with
  | nil => rfl
  | cons x xs ih =>
    have hx : x.price = a.price := hxs x (List.mem_cons_self x xs)
    have hxq : 0 ≤ x.qty := hq x (List.mem_cons_self x xs)
    have hxs' : ∀ x' ∈ xs, x'.price = a.price :=
      fun x' hx' => hxs x' (List.mem_cons_of_mem _ hx')
    have hq' : ∀ x' ∈ xs, 0 ≤ x'.qty :=
      fun x' hx' => hq x' (List.mem_cons_of_mem _ hx')
    calc walk ((x :: xs) ++ a :: ys) q
        = if q ≤ x.qty then q * x.price
          else x.qty * x.price + walk (xs ++ a :: ys) (q - x.qty) := by
            rw [List.cons_append, walk_cons]
      _ = if q ≤ x.qty then q * x.price
          else x.qty * x.price + walk (a :: (xs ++ ys)) (q - x.qty) := by
            by_cases hc : q ≤ x.qty
            · rw [if_pos hc, if_pos hc]
            · rw [if_neg hc, if_neg hc, ih hxs' hq' (q - x.qty)]
      _ = walk (x :: a :: (xs ++ ys)) q := (walk_cons x (a :: (xs ++ ys)) q).symm
      _ = walk (a :: x :: (xs ++ ys)) q := walk_swap x a (xs ++ ys) hx hxq ha q
      _ = walk (a :: ((x :: xs) ++ ys)) q := by rw [List.cons_append]

/-- Two sorted arrangements of the same multiset of levels produce the same
walk result, for any sorting relation that forces equal prices between
elements related both ways (ties may be ordered arbitrarily, as `std::sort`
does). -/
lemma walk_perm_of_sorted (r : Order → Order → Prop)
    (hanti : ∀ a b, r a b → r b a → a.price = b.price) :
    ∀ l1 l2 : List Order, l1.Perm l2 → l1.Sorted r → l2.Sorted r →
      (∀ o ∈ l1, 0 ≤ o.qty) → ∀ q, walk l1 q = walk l2 q := by
  intro l1
  induction l1 with
  | nil =>
    intro l2 hperm _ _ _ q
    rw [hperm.symm.eq_nil]
  | cons a t1 ih =>
    intro l2 hperm hs1 hs2 hq q
    have ha2 : a ∈ l2 := hperm.mem_iff.mp (List.mem_cons_self a t1)
    obtain ⟨xs, ys, rfl⟩ := List.append_of_mem ha2
    obtain ⟨px, pa, hcross⟩ := List.pairwise_append.mp hs2
    have hq_all : ∀ o ∈ xs ++ a :: ys, 0 ≤ o.qty :=
      fun o ho => hq o (hperm.mem_iff.mpr ho)
    have hxs_price : ∀ x ∈ xs, x.price = a.price := by
      intro x hx
      have hr1 : r x a := hcross x hx a (List.mem_cons_self a ys)
      have hx1 : x ∈ a :: t1 := hperm.mem_iff.mpr (List.mem_append_left _ hx)
      rcases List.mem_cons.mp hx1 with heq | ht
      · rw [heq]
      · exact hanti x a hr1 (List.rel_of_sorted_cons hs1 x ht)
    have hperm' : t1.Perm (xs ++ ys) :=
      (hperm.trans List.perm_middle).cons_inv
    have hs2' : (xs ++ ys).Sorted r := by
      refine List.pairwise_append.mpr ⟨px, pa.of_cons, ?_⟩
      exact fun x hx y hy => hcross x hx y (List.mem_cons_of_mem _ hy)
    have hrot := walk_rotate a xs ys hxs_price
      (fun x hx => hq_all x (List.mem_append_left _ hx))
      (hq a (List.mem_cons_self a t1)) q
    rw [hrot, walk_cons, walk_cons]
    by_cases hc : q ≤ a.qty
    · rw [if_pos hc, if_pos hc]
    · rw [if_neg hc, if_neg hc,
        ih (xs ++ ys) hperm' hs1.of_cons hs2'
          (fun o ho => hq o (List.mem_cons_of_mem _ ho)) (q - a.qty)]

/-- C1: `executeBuy` sorts the asks ascending by price, then walks the sorted
levels taking `min(remaining, level.qty)` at each level, adding
`take * level.price` to the cost, decrementing the remaining quantity by the
take, stopping as soon as the remaining quantity is `≤ 0` or the levels are
exhausted; and for asks `[(50000, 0.5), (50010, 2.0)]` with `qty = 1` the cost
is `50005`. -/
theorem executeBuy_greedy_walk :
    (∀ (asks : List Order) (qty : ℚ),
        executeBuy asks qty = walk (List.insertionSort askLE asks) qty
        ∧ (List.insertionSort askLE asks).Sorted askLE
        ∧ (List.insertionSort askLE asks).Perm asks)
    ∧ (∀ q : ℚ, walk [] q = 0)
    ∧ (∀ (o : Order) (rest : List Order) (q : ℚ),
        walk (o :: rest) q =
          if q - min q o.qty ≤ 0 then min q o.qty * o.price
          else min q o.qty * o.price + walk rest (q - min q o.qty))
    ∧ executeBuy [⟨50000, 1/2⟩, ⟨50010, 2⟩] 1 = 50005 := by
  refine ⟨fun asks qty => ⟨rfl, List.sorted_insertionSort _ _, List.perm_insertionSort _ _⟩,
    fun q => rfl, fun o rest q => rfl,
    by norm_num [executeBuy, List.insertionSort, List.orderedInsert, askLE, walk_cons, walk]⟩

/-- C2: `executeSell` sorts the bids descending by price and then runs exactly
the same walking loop as `executeBuy`; for bids `[(100, 1), (90, 5)]` with
`qty = 1` the revenue is `100`. -/
theorem executeSell_greedy_walk :
    (∀ (bids : List Order) (qty : ℚ),
        executeSell bids qty = walk (List.insertionSort bidGE bids) qty
        ∧ (List.insertionSort bidGE bids).Sorted bidGE
        ∧ (List.insertionSort bidGE bids).Perm bids)
    ∧ executeSell [⟨100, 1⟩, ⟨90, 5⟩] 1 = 100 := by
  refine ⟨fun bids qty => ⟨rfl, List.sorted_insertionSort _ _, List.perm_insertionSort _ _⟩,
    by norm_num [executeSell, List.insertionSort, List.orderedInsert, bidGE, walk_cons, walk]⟩

/-- C10: the matcher mutates its order sequence only by reordering it: after
`executeBuy` / `executeSell` the vector is a permutation of its input (so
every order keeps its `price` and `qty` fields, with multiplicity), for every
input and every requested quantity. -/
theorem execute_post_is_permutation :
    ∀ (asks bids : List Order) (qty : ℚ),
      (executeBuyPost asks qty).Perm asks ∧ (executeSellPost bids qty).Perm bids :=
  fun _ _ _ => ⟨List.perm_insertionSort _ _, List.perm_insertionSort _ _⟩

/-- C5 counterexample: the claim says `executeBuy` returns `0` whenever
`qty ≤ 0`, but on the single ask level `(price 1, qty 1)` with `qty = -1` the
loop still runs one iteration: `take = min(-1, 1) = -1`, so the returned cost
is `-1`, not `0`. -/
theorem executeBuy_neg_qty_counterexample :
    executeBuy [⟨1, 1⟩] (-1) = -1 ∧ (-1 : ℚ) ≠ 0 := by
  exact ⟨by norm_num [executeBuy, List.insertionSort, List.orderedInsert, askLE, walk_cons, walk],
    by norm_num⟩

/-- C5 amended: with `qty = 0` (and non-negative level quantities, as for real
order levels) both matchers return `0`, and on an empty level sequence both
return `0` for every `qty`; but for `qty < 0` the loop still executes one
iteration and can return a non-zero (negative) value. -/
theorem execute_zero_qty_and_empty (l : List Order) (h : ∀ o ∈ l, 0 ≤ o.qty) :
    executeBuy l 0 = 0 ∧ executeSell l 0 = 0
    ∧ ∀ q : ℚ, executeBuy [] q = 0 ∧ executeSell [] q = 0 := by
  refine ⟨?_, ?_, fun q => ⟨rfl, rfl⟩⟩
  · exact walk_zero _ fun o ho =>
      h o ((List.perm_insertionSort askLE l).mem_iff.mp ho)
  · exact walk_zero _ fun o ho =>
      h o ((List.perm_insertionSort bidGE l).mem_iff.mp ho)

/-- Witness for `execute_zero_qty_and_empty` at the concrete level list
`[(price 2, qty 3)]`. -/
theorem execute_zero_qty_and_empty_witness :
    executeBuy [⟨2, 3⟩] 0 = 0 ∧ executeSell [⟨2, 3⟩] 0 = 0 := by
  have h := execute_zero_qty_and_empty [⟨2, 3⟩] (by intro o ho; simp at ho; simp [ho])
  exact ⟨h.1, h.2.1⟩

/-- C3: `executeBuy` never consumes more than the total quantity available
across all levels, and when the total available quantity is strictly below the
target the returned cost is the full liquidity value
`Σ level.qty * level.price` (a partial fill, indistinguishable from a full
fill in the return value). -/
theorem executeBuy_liquidity_bound (asks : List Order) (q : ℚ)
    (h : ∀ o ∈ asks, 0 ≤ o.qty) :
    consumedBuy asks q ≤ (asks.map Order.qty).sum
    ∧ ((asks.map Order.qty).sum < q →
        executeBuy asks q = (asks.map fun o => o.qty * o.price).sum) := by
  have hperm : (List.insertionSort askLE asks).Perm asks := List.perm_insertionSort _ _
  have hsorted : ∀ o ∈ List.insertionSort askLE asks, 0 ≤ o.qty :=
    fun o ho => h o (hperm.mem_iff.mp ho)
  have hqty : ((List.insertionSort askLE asks).map Order.qty).sum
      = (asks.map Order.qty).sum := (hperm.map Order.qty).sum_eq
  have hval : ((List.insertionSort askLE asks).map fun o => o.qty * o.price).sum
      = (asks.map fun o => o.qty * o.price).sum :=
    (hperm.map fun o => o.qty * o.price).sum_eq
  constructor
  · rw [← hqty]
    exact consumed_le_sum _ hsorted q
  · intro hlt
    rw [← hval]
    exact walk_exhausts _ hsorted q (by rw [hqty]; exact hlt)

/-- Witness for `executeBuy_liquidity_bound` at asks `[(price 10, qty 2)]`
and target `5`: at most `2` units are consumed, and since `2 < 5` the cost is
the full liquidity value `2 * 10 = 20`. -/
theorem executeBuy_liquidity_bound_witness :
    consumedBuy [⟨10, 2⟩] 5 ≤ (([⟨10, 2⟩] : List Order).map Order.qty).sum
    ∧ executeBuy [⟨10, 2⟩] 5
      = (([⟨10, 2⟩] : List Order).map fun o => o.qty * o.price).sum := by
  have h := executeBuy_liquidity_bound [⟨10, 2⟩] 5 (by
    intro o ho
    rw [List.mem_singleton] at ho
    rw [ho]
    norm_num)
  exact ⟨h.1, h.2 (by norm_num)⟩

/-- C4: with the ask set fixed (and made of genuine levels: non-negative
prices and quantities), the cost returned by `executeBuy` is monotonically
non-decreasing in the requested quantity, for all `0 ≤ q1 ≤ q2`. -/
theorem executeBuy_monotone (asks : List Order) (q1 q2 : ℚ)
    (h : ∀ o ∈ asks, 0 ≤ o.price ∧ 0 ≤ o.qty) (h1 : 0 ≤ q1) (h12 : q1 ≤ q2) :
    executeBuy asks q1 ≤ executeBuy asks q2 := by
  have hperm : (List.insertionSort askLE asks).Perm asks := List.perm_insertionSort _ _
  exact walk_mono _ (fun o ho => h o (hperm.mem_iff.mp ho)) q1 q2 h1 h12

/-- Witness for `executeBuy_monotone` at asks `[(price 3, qty 2)]` with
`q1 = 1 ≤ q2 = 2`. -/
theorem executeBuy_monotone_witness :
    executeBuy [⟨3, 2⟩] 1 ≤ executeBuy [⟨3, 2⟩] 2 :=
  executeBuy_monotone [⟨3, 2⟩] 1 2 (by
    intro o ho
    rw [List.mem_singleton] at ho
    rw [ho]
    norm_num) (by norm_num) (by norm_num)

/-- `executeBuy` depends only on the multiset of ask levels (with non-negative
quantities): permuting its input does not change the cost. -/
lemma executeBuy_perm (l1 l2 : List Order) (hp : l1.Perm l2)
    (h : ∀ o ∈ l1, 0 ≤ o.qty) (q : ℚ) : executeBuy l1 q = executeBuy l2 q := by
  refine walk_perm_of_sorted askLE (fun a b h1 h2 => le_antisymm h1 h2) _ _
    ((List.perm_insertionSort askLE l1).trans
      (hp.trans (List.perm_insertionSort askLE l2).symm))
    (List.sorted_insertionSort askLE l1) (List.sorted_insertionSort askLE l2)
    (fun o ho => h o ((List.perm_insertionSort askLE l1).mem_iff.mp ho)) q

/-- `executeSell` depends only on the multiset of bid levels (with
non-negative quantities): permuting its input does not change the revenue. -/
lemma executeSell_perm (l1 l2 : List Order) (hp : l1.Perm l2)
    (h : ∀ o ∈ l1, 0 ≤ o.qty) (q : ℚ) : executeSell l1 q = executeSell l2 q := by
  refine walk_perm_of_sorted bidGE (fun a b h1 h2 => le_antisymm h2 h1) _ _
    ((List.perm_insertionSort bidGE l1).trans
      (hp.trans (List.perm_insertionSort bidGE l2).symm))
    (List.sorted_insertionSort bidGE l1) (List.sorted_insertionSort bidGE l2)
    (fun o ho => h o ((List.perm_insertionSort bidGE l1).mem_iff.mp ho)) q

/-- C6: aggregation is pure concatenation of the books' level lists,
preserving multiplicity, and the order of concatenation does not affect the
matching result: for any two books `A`, `B` (with non-negative level
quantities) and any fixed `qty`, matching the pools built from `A` then `B`
gives exactly the same cost and revenue as the pools built from `B` then
`A`. -/
theorem aggregate_order_invariant (A B : OrderBook) (q : ℚ)
    (hasks : ∀ o ∈ A.asks ++ B.asks, 0 ≤ o.qty)
    (hbids : ∀ o ∈ A.bids ++ B.bids, 0 ≤ o.qty) :
    aggregate A B = (A.bids ++ B.bids, A.asks ++ B.asks)
    ∧ executeBuy (aggregate A B).2 q = executeBuy (aggregate B A).2 q
    ∧ executeSell (aggregate A B).1 q = executeSell (aggregate B A).1 q :=
  ⟨rfl,
    executeBuy_perm _ _ List.perm_append_comm hasks q,
    executeSell_perm _ _ List.perm_append_comm hbids q⟩

/-- Witness for `aggregate_order_invariant` on the concrete books
`A = (bids [(100, 1)], asks [(50, 2)])`, `B = (bids [(90, 5)], asks [(60, 1)])`
with `qty = 1`. -/
theorem aggregate_order_invariant_witness :
    executeBuy (aggregate ⟨[⟨100, 1⟩], [⟨50, 2⟩]⟩ ⟨[⟨90, 5⟩], [⟨60, 1⟩]⟩).2 1
      = executeBuy (aggregate ⟨[⟨90, 5⟩], [⟨60, 1⟩]⟩ ⟨[⟨100, 1⟩], [⟨50, 2⟩]⟩).2 1
    ∧ executeSell (aggregate ⟨[⟨100, 1⟩], [⟨50, 2⟩]⟩ ⟨[⟨90, 5⟩], [⟨60, 1⟩]⟩).1 1
      = executeSell (aggregate ⟨[⟨90, 5⟩], [⟨60, 1⟩]⟩ ⟨[⟨100, 1⟩], [⟨50, 2⟩]⟩).1 1 := by
  have h := aggregate_order_invariant ⟨[⟨100, 1⟩], [⟨50, 2⟩]⟩ ⟨[⟨90, 5⟩], [⟨60, 1⟩]⟩ 1
    (by
      intro o ho
      rcases List.mem_append.mp ho with h' | h' <;>
        · rw [List.mem_singleton] at h'
          rw [h']
          norm_num)
    (by
      intro o ho
      rcases List.mem_append.mp ho with h' | h' <;>
        · rw [List.mem_singleton] at h'
          rw [h']
          norm_num)
  exact ⟨h.2.1, h.2.2⟩

/-- The rate-limiter cooldown, `2'000'000'000` nanoseconds (main.cpp
line 34). -/
def cooldownNs : ℤ := 2000000000

/-- The atomic `lastCallNs.compare_exchange_strong(last, now)` of main.cpp
line 35: it succeeds and stores the new value exactly when the atomic still
holds the previously loaded value. -/
def casStep (expected newVal cur : ℤ) : Bool × ℤ :=
  if cur = expected then (true, newVal) else (false, cur)

/-- `RateLimiter::allow` (main.cpp lines 28-36) with the load decoupled from
the CAS: `loaded` is the value read by `lastCallNs.load()` and `cur` the value
the atomic holds when the CAS executes (the two differ only if a concurrent
caller updated the atomic in between).  If less than the cooldown elapsed
since `loaded`, the call returns false without touching the state; otherwise
it attempts the CAS. -/
def allowWith (now loaded cur : ℤ) : Bool × ℤ :=
  if now - loaded < cooldownNs then (false, cur) else casStep loaded now cur

/-- `RateLimiter::allow` in a sequential run: the load sees the current
state. -/
def allow (now cur : ℤ) : Bool × ℤ := allowWith now cur cur

/-- C7: `allow` returns true and records the call time exactly when at least
the 2-second cooldown has elapsed since the recorded time, and returns false
with unchanged state otherwise; in the two-calls-in-one-window scenario
exactly the first call succeeds and a later call after the cooldown succeeds
again; and under a concurrent interleaving where two callers load the same
timestamp and both pass the time check, only the first CAS wins — the second
caller observes false and the first caller's timestamp is kept. -/
theorem rateLimiter_allow_spec :
    (∀ now st : ℤ, cooldownNs ≤ now - st → allow now st = (true, now))
    ∧ (∀ now st : ℤ, now - st < cooldownNs → allow now st = (false, st))
    ∧ (∀ st0 t1 t2 t3 : ℤ, cooldownNs ≤ t1 - st0 → t2 - t1 < cooldownNs →
        cooldownNs ≤ t3 - t1 →
        allow t1 st0 = (true, t1) ∧ allow t2 t1 = (false, t1)
        ∧ allow t3 t1 = (true, t3))
    ∧ (∀ st0 tA tB : ℤ, cooldownNs ≤ tA - st0 → cooldownNs ≤ tB - st0 →
        allowWith tA st0 st0 = (true, tA) ∧ allowWith tB st0 tA = (false, tA)) := by
  have hcpos : (0 : ℤ) < cooldownNs := by norm_num [cooldownNs]
  have hgrant : ∀ now st : ℤ, cooldownNs ≤ now - st → allow now st = (true, now) := by
    intro now st h
    simp [allow, allowWith, casStep, not_lt.mpr h]
  have hdeny : ∀ now st : ℤ, now - st < cooldownNs → allow now st = (false, st) := by
    intro now st h
    simp [allow, allowWith, h]
  refine ⟨hgrant, hdeny, ?_, ?_⟩
  · intro st0 t1 t2 t3 h1 h2 h3
    exact ⟨hgrant t1 st0 h1, hdeny t2 t1 h2, hgrant t3 t1 h3⟩
  · intro st0 tA tB hA hB
    have hne : tA ≠ st0 := by
      intro he
      rw [he] at hA
      simp at hA
      linarith
    exact ⟨by simp [allowWith, casStep, not_lt.mpr hA],
      by simp [allowWith, casStep, not_lt.mpr hB, hne]⟩

/-- Witness for `rateLimiter_allow_spec`: a fresh limiter (state `0`) grants a
call at `t = 2s`, denies a second call at `t = 2.5s`, and a concurrent caller
that loaded state `0` but CASes after the winner stored `2s` is denied. -/
theorem rateLimiter_allow_spec_witness :
    allow 2000000000 0 = (true, 2000000000)
    ∧ allow 2500000000 2000000000 = (false, 2000000000)
    ∧ allowWith 5000000000 0 2000000000 = (false, 2000000000) := by
  obtain ⟨h1, h2, _, h4⟩ := rateLimiter_allow_spec
  exact ⟨h1 2000000000 0 (by norm_num [cooldownNs]),
    h2 2500000000 2000000000 (by norm_num [cooldownNs]),
    (h4 0 2000000000 5000000000 (by norm_num [cooldownNs])
      (by norm_num [cooldownNs])).2⟩

/-- Control flow of `CoinbaseExchange::fetch` and `GeminiExchange::fetch`
(main.cpp lines 54-80 and 87-113): if the limiter denies, the empty book is
returned before any network call; otherwise the body parses the transport's
response and builds the book.  `parsed` abstracts the combined outcome of the
transport, `json::parse` and field extraction: `none` when `json::parse` (or a
field access or `std::stod`) throws.  The body contains no try/catch, so that
exception propagates out of `fetch`, modelled as `Except.error`. -/
def fetch (allowed : Bool) (parsed : Option OrderBook) : Except Unit OrderBook :=
  if allowed = false then Except.ok ⟨[], []⟩
  else
    match parsed with
    | none => Except.error ()
    | some ob => Except.ok ob

/-- C8 counterexample: the claim says a transport/parse failure is degraded to
an empty book and never surfaced as a fatal error, but with the limiter
granting and `json::parse` throwing (a malformed or empty response), the
exception escapes `fetch` uncaught — the call does not return an empty
book. -/
theorem fetch_parse_failure_counterexample :
    fetch true none = Except.error ()
    ∧ fetch true none ≠ Except.ok ⟨[], []⟩ := by
  refine ⟨rfl, ?_⟩
  intro h
  simp [fetch] at h

/-- C8 amended: on rate-limit denial `fetch` does return the empty book
without any network interaction (the result is independent of the would-be
response); but a transport/parse failure while the limiter grants raises an
exception that propagates out of `fetch` uncaught, instead of degrading to an
empty book. -/
theorem fetch_denial_returns_empty :
    (∀ parsed : Option OrderBook, fetch false parsed = Except.ok ⟨[], []⟩)
    ∧ fetch true none = Except.error () :=
  ⟨fun _ => rfl, rfl⟩

/-- Outcome of `main`'s quantity-parsing step. -/
inductive CliOutcome where
  | runWith (qty : ℚ)
  | uncaughtException
deriving DecidableEq, Repr

/-- The quantity parsing of `main` (main.cpp lines 144-147): with exactly two
user arguments whose first is `--qty`, the code runs
`qty = std::stod(argv[2])`; `stod` abstracts `std::stod`, which either yields
a value or throws on malformed input (`Except.error`).  `main` has no
try/catch and prints no diagnostic, so a throwing `stod` terminates the run as
an uncaught exception; every other argument shape keeps the default
`10.0`. -/
def mainQty (args : List String) (stod : String → Except Unit ℚ) : CliOutcome :=
  match args with
  | [flag, value] =>
    if flag = "--qty" then
      match stod value with
      | Except.ok q => CliOutcome.runWith q
      | Except.error _ => CliOutcome.uncaughtException
    else CliOutcome.runWith 10
  | _ => CliOutcome.runWith 10

/-- C9: for a malformed `--qty` value (one on which `std::stod` throws, such
as `"abc"`), `main` neither prints an "invalid quantity" diagnostic nor falls
back to the default `10.0`: the `std::stod` exception propagates uncaught out
of `main`, so the run does not proceed with any quantity at all. -/
theorem mainQty_malformed_uncaught (stod : String → Except Unit ℚ)
    (h : stod "abc" = Except.error ()) :
    mainQty ["--qty", "abc"] stod = CliOutcome.uncaughtException
    ∧ ∀ q : ℚ, mainQty ["--qty", "abc"] stod ≠ CliOutcome.runWith q := by
  constructor
  · simp [mainQty, h]
  · intro q hq
    simp [mainQty, h] at hq

/-- Witness for `mainQty_malformed_uncaught` with a `std::stod` model that
rejects `"abc"`. -/
theorem mainQty_malformed_uncaught_witness :
    mainQty ["--qty", "abc"] (fun _ => Except.error ())
      = CliOutcome.uncaughtException :=
  (mainQty_malformed_uncaught (fun _ => Except.error ()) rfl).1

end Zebpay
